import Mathlib

/- A shallow embedding of the temper template-compiler service
   (bigpipe/temper): engine discovery, the tiered caches, the
   pass-through HTML backend, name normalization and teardown, with
   theorems checking the specified behaviour against the code.  JS
   strings are modelled as lists of characters; the external
   collaborators (the module loader, the filesystem, the third-party
   template compilers, crypto, V8 function printing) are an explicit
   environment of opaque functions. -/

set_option maxRecDepth 8000

deriving instance DecidableEq for Except

/-- JS strings are modelled as lists of characters. -/
abbrev LStr := List Char

/-- Shorthand turning a Lean string literal into the character-list model. -/
def ls (s : String) : LStr := s.data

/-- The apostrophe character, spelled out to keep literals simple. -/
def apos : Char := Char.ofNat 39

/-- Global replacement of a literal pattern, left to right and without
overlap: the semantics of the JS `template.replace(new RegExp(key, g), f)`
call for a pattern free of regex metacharacters.  Because `Temper.html`
passes a function replacer (src/unnamed/part_000 line 406), the
replacement text is inserted verbatim: dollar sequences in it are inert,
which is why `rep` is spliced in unchanged here. -/
def replaceAllAux (pat rep : LStr) : Nat → LStr → LStr
  | _, [] => []
  | 0, s => s
  | fuel + 1, c :: rest =>
    if pat.isPrefixOf (c :: rest) ∧ pat ≠ [] then
      rep ++ replaceAllAux pat rep fuel (List.drop pat.length (c :: rest))
    else
      c :: replaceAllAux pat rep fuel rest

/-- The scan starts with fuel equal to the subject's length, which the
recursion never exhausts (the matched pattern is nonempty); the fuel
only makes the recursion structural so that the function computes. -/
def replaceAll (pat rep s : LStr) : LStr := replaceAllAux pat rep s.length s

/-- First-occurrence replacement of a literal pattern: JS
String.prototype.replace with a plain string pattern, as used by
transform (src/unnamed/part_000 lines 373-375). -/
def replaceFirst (pat rep : LStr) : LStr → LStr
  | [] => []
  | c :: rest =>
    if pat.isPrefixOf (c :: rest) ∧ pat ≠ [] then rep ++ List.drop pat.length (c :: rest)
    else c :: replaceFirst pat rep rest

/-- Substring test, used to state which module names an error message
carries. -/
def hasSub (needle : LStr) : LStr → Bool
  | [] => needle.isEmpty
  | c :: rest => needle.isPrefixOf (c :: rest) || hasSub needle rest

/-- Temper.prototype.transform: rename an anonymous function string by
replacing the first occurrence of "function anonymous" with the derived
name (src/unnamed/part_000 lines 373-375). -/
def transform (fn nm : LStr) : LStr :=
  replaceFirst (ls "function anonymous") (ls "function " ++ nm) fn

/-- A JS data record: own enumerable properties plus the prototype's
enumerable properties, each an insertion-ordered association list.  A
record built with Object.create(null) simply has an empty prototype. -/
structure JsObj where
  own : List (LStr × LStr)
  proto : List (LStr × LStr)
deriving DecidableEq

/-- The keys produced by a JS for-in loop over a record: own keys in
insertion order, then prototype keys not shadowed by an own key. -/
def forInKeys (o : JsObj) : List LStr :=
  o.own.map Prod.fst ++ (o.proto.map Prod.fst).filter (fun k => !((o.own.map Prod.fst).contains k))

/-- Object.prototype.hasOwnProperty.call(data, key). -/
def JsObj.hasOwnB (o : JsObj) (k : LStr) : Bool := (List.lookup k o.own).isSome

/-- data[key] for a key known to be an own property. -/
def JsObj.getOwn (o : JsObj) (k : LStr) : LStr := (List.lookup k o.own).getD []

namespace Temper

/-- Temper.html (src/unnamed/part_000 lines 396-413): for each own
enumerable key of data, globally replace the brace-wrapped key in the
template with the key's value; the function replacer makes the insertion
verbatim. -/
def html (template : LStr) (data : JsObj) : LStr :=
  (forInKeys data).foldl
    (fun t key =>
      if data.hasOwnB key then replaceAll ('{' :: key ++ ['}']) (data.getOwn key) t else t)
    template

end Temper

/-- The server artifact of the html backend (src/unnamed/part_000 lines
339-341): a closure over the raw template applying Temper.html to the
data record, or to the empty record when no data is passed. -/
def htmlServerFn (template : LStr) (data : Option JsObj) : LStr :=
  Temper.html template (data.getD ⟨[], []⟩)

/-- The server member of a compiled artifact: for the html backend a
closure over the template; for external engines an opaque compiled
callable identified by the engine and the code the engine returned. -/
inductive ServerVal where
  | htmlTpl (template : LStr)
  | ext (engine code : LStr)
deriving DecidableEq

/-- The client member of a compiled artifact: ordinarily a plain source
string; the html client is kept as its determining data (derived name
and embedded template) because its exact text also involves V8 function
printing, which is external to this model. -/
inductive ClientVal where
  | str (s : LStr)
  | htmlClient (nm template : LStr)
deriving DecidableEq

/-- Evaluating a client artifact in a fresh execution context on a data
record: the generated html client is the stringified substitution logic
with an embedded copy of the source, so evaluating it applies Temper.html
to that source and the record (the JSON round trip of the embedded
template is the identity on strings); external clients stay opaque. -/
def ClientVal.eval : ClientVal → Option JsObj → Option LStr
  | .htmlClient _ t, d => some (htmlServerFn t d)
  | .str _, _ => none

/-- Evaluating a server artifact on a data record (html is concrete,
external engines stay opaque). -/
def ServerVal.eval : ServerVal → Option JsObj → Option LStr
  | .htmlTpl t, d => some (htmlServerFn t d)
  | .ext _ _, _ => none

/-- A template seen as alternating literal runs and named placeholders;
flatten is the raw source text.  This is the specification-side view
used to state what substitution must do. -/
inductive Tpl where
  | nil : Tpl
  | lit : LStr → Tpl → Tpl
  | hole : LStr → Tpl → Tpl
deriving DecidableEq

/-- The raw text of a decomposed template: placeholders are written as
the name wrapped in braces. -/
def Tpl.flatten : Tpl → LStr
  | .nil => []
  | .lit s r => s ++ r.flatten
  | .hole n r => '{' :: n ++ '}' :: r.flatten

/-- Well-formed decomposition: literal runs contain no opening brace and
placeholder names contain no brace at all, so that the source text has
no collision with the substitution syntax. -/
def Tpl.ok : Tpl → Prop
  | .nil => True
  | .lit s r => '{' ∉ s ∧ r.ok
  | .hole n r => '{' ∉ n ∧ '}' ∉ n ∧ r.ok

/-- Replace every placeholder named k by the literal v. -/
def Tpl.substKey (k v : LStr) : Tpl → Tpl
  | .nil => .nil
  | .lit s r => .lit s (r.substKey k v)
  | .hole n r => if n = k then .lit v (r.substKey k v) else .hole n (r.substKey k v)

/-- Simultaneous substitution of a whole record: every placeholder whose
name is a key of the record becomes the record's value for it, every
other placeholder stays verbatim. -/
def Tpl.substData (d : List (LStr × LStr)) : Tpl → Tpl
  | .nil => .nil
  | .lit s r => .lit s (r.substData d)
  | .hole n r =>
    match List.lookup n d with
    | some v => .lit v (r.substData d)
    | none => .hole n (r.substData d)

/-- The failure taxonomy raised by temper's operations. -/
inductive TErr where
  | moduleMissing (engine extname : LStr)
  | unknownExtension (ext : LStr)
  | noEngine (first : LStr)
  | fileUnreadable (file : LStr)
  | typeError
deriving DecidableEq

/-- The message of each thrown Error, as the source builds it (the I/O
cause appended by read and the TypeError text are external). -/
def TErr.message : TErr → LStr
  | .moduleMissing e x =>
      ls "The " ++ e ++ ls " module isn" ++ [apos] ++
      ls "t installed which we need to compile " ++ x ++
      ls " templates. Run `npm install --save " ++ e ++ ls "` in the root of your project."
  | .unknownExtension x => ls "Unknown file extension. " ++ x ++ ls " is not supported"
  | .noEngine first =>
      ls "No compatible template engine installed, please run: npm install --save " ++ first
  | .fileUnreadable f => ls "Unable to read " ++ f ++ ls " due to "
  | .typeError => ls "TypeError"

/-- The uniform compiled artifact (the nested hash object is flattened
into three fields). -/
structure Artifact where
  library : LStr
  client : ClientVal
  server : ServerVal
  engine : LStr
  hashLibrary : LStr
  hashClient : LStr
  hashServer : LStr
deriving DecidableEq

/-- The per-instance mutable state created by the Temper constructor
(src/unnamed/part_000 lines 18-36): the four caches, the names of the
scheduled eviction timers, and the cache flag. -/
structure TState where
  installed : List (LStr × LStr)
  required : List (LStr × Option Unit)
  compiled : List (LStr × Artifact)
  file : List (LStr × LStr)
  timers : List LStr
  cache : Bool
deriving DecidableEq

/-- JS object property write: update an existing key in place, else
append, preserving insertion order. -/
def setA {α : Type} (k : LStr) (v : α) : List (LStr × α) → List (LStr × α)
  | [] => [(k, v)]
  | (k', v') :: rest => if k' = k then (k, v) :: rest else (k', v') :: setA k v rest

/-- Record a scheduled eviction timer (tick-tock setTimeout); the firing
of timers is asynchronous and external, so only the bookkeeping is
modelled. -/
def addTimer (name : LStr) (s : TState) : TState := { s with timers := s.timers ++ [name] }

/-- The cache option: an explicitly supplied value wins, otherwise the
default is whether NODE_ENV differs from production
(src/unnamed/part_000 lines 26-28). -/
def temperCacheOption (explicit : Option Bool) (nodeEnv : Option LStr) : Bool :=
  match explicit with
  | some b => b
  | none => !(nodeEnv == some (ls "production"))

/-- The Temper constructor: empty caches, no timers, the cache flag
derived from the options. -/
def temperInit (explicit : Option Bool) (nodeEnv : Option LStr) : TState :=
  { installed := [], required := [], compiled := [], file := [], timers := [],
    cache := temperCacheOption explicit nodeEnv }

/-- External collaborators: the module loader, the filesystem, the
third-party compilers (opaque capabilities per the spec), module path
resolution, the md5 digest, and V8 function printing. -/
structure Env where
  modules : LStr → Bool
  fs : LStr → Option LStr
  extServer : LStr → LStr → LStr
  extClient : LStr → LStr → LStr
  resolveDir : LStr → LStr
  md5 : LStr → LStr
  serverToString : ServerVal → LStr
  newFnText : LStr → LStr

/-- The text of a client artifact: a .str value is already text; the
html client text is the V8 printing of the generated function, renamed
through transform exactly as the source does. -/
def clientText (env : Env) : ClientVal → LStr
  | .str s => s
  | .htmlClient nm t => transform (env.newFnText t) nm

/-- The hogan.js client wrapper (src/unnamed/part_000 lines 241-247,
joined with the empty separator). -/
def hoganWrap (asString : LStr) : LStr :=
  ls "(function hulk() \x7b" ++ ls "var template = new Hogan.Template(" ++ asString ++
  ls ");" ++ ls "return function render(data) \x7b return template.render(data); \x7d;"

/-- Assemble the artifact object returned by compile
(src/unnamed/part_000 lines 352-362). -/
def mkArt (env : Env) (lib : LStr) (client : ClientVal) (server : ServerVal) (eng : LStr) :
    Artifact :=
  { library := lib, client := client, server := server, engine := eng,
    hashLibrary := env.md5 lib, hashClient := env.md5 (clientText env client),
    hashServer := env.md5 (env.serverToString server) }

/-- Node path.basename without a suffix argument: the part after the
last slash (temper receives ordinary file paths, so trailing-slash
trimming never applies). -/
def basenameOf (p : LStr) : LStr := (p.reverse.takeWhile (fun c => !(c == '/'))).reverse

/-- Node path.extname: the suffix of the base name from its last dot,
empty when there is no dot or the only dot is the leading character. -/
def extnameOf (p : LStr) : LStr :=
  let b := basenameOf p
  let tail := b.reverse.takeWhile (fun c => !(c == '.'))
  if tail.length + 1 ≤ b.length then
    if tail.length + 1 = b.length then [] else '.' :: tail.reverse
  else []

/-- Drop a known suffix: path.basename(file, ext) with ext the file's
own extname always ends with ext, leaving the base minus that many
trailing characters. -/
def stripSuffix (b ext : LStr) : LStr := b.take (b.length - ext.length)

/-- Temper.prototype.normalizeName (src/unnamed/part_000 lines 148-156):
base name without extension, leading digit run removed, then every
character outside alphanumerics, underscore and the dollar sign
removed. -/
def normalizeName (file : LStr) : LStr :=
  let name := stripSuffix (basenameOf file) (extnameOf file)
  (name.dropWhile Char.isDigit).filter (fun c => c.isAlphanum || c == '_' || c == '$')

/-- Temper.prototype.supported (src/unnamed/part_000 lines 46-54). -/
def supported (ext : LStr) : Option (List LStr) :=
  if ext = ls ".mustache" then some [ls "hogan.js", ls "mustache", ls "handlebars"]
  else if ext = ls ".handlebars" then some [ls "handlebars"]
  else if ext = ls ".hbs" then some [ls "handlebars"]
  else if ext = ls ".jsx" then some [ls "react-jsx"]
  else if ext = ls ".html" then some [ls "html"]
  else if ext = ls ".jade" then some [ls "jade"]
  else if ext = ls ".ejs" then some [ls "ejs"]
  else none

/-- Temper.prototype.require (src/unnamed/part_000 lines 64-84): return
the cached engine; register the null capability for html without any
load; otherwise attempt the load, where a failure stores nothing and
throws, and a fresh success is cached and scheduled for eviction. -/
def requires (env : Env) (engine extname : LStr) (s : TState) :
    Except TErr (Option Unit) × TState :=
  match List.lookup engine s.required with
  | some cap => (.ok cap, s)
  | none =>
    if engine = ls "html" then
      (.ok none,
        addTimer (ls "require-" ++ engine) { s with required := setA engine none s.required })
    else if env.modules engine then
      (.ok (some ()),
        addTimer (ls "require-" ++ engine) { s with required := setA engine (some ()) s.required })
    else
      (.error (.moduleMissing engine extname), s)

/-- Temper.prototype.read (src/unnamed/part_000 lines 93-115): return
the cached content, else readFileSync; a failed read stores nothing and
throws; a success is cached with a one-minute eviction timer. -/
def Temper.read (env : Env) (file : LStr) (s : TState) : Except TErr LStr × TState :=
  match List.lookup file s.file with
  | some c => (.ok c, s)
  | none =>
    match env.fs file with
    | some content =>
        (.ok content, addTimer (ls "read-" ++ file) { s with file := setA file content s.file })
    | none => (.error (.fileUnreadable file), s)

/-- The side-effecting list.filter inside discover (src/unnamed/part_000
lines 185-198): probe every candidate in order, a failed require being
caught and skipped; each success re-stores the engine capability and
overwrites the extension binding; the list of successes is returned. -/
def discoverLoop (env : Env) (ext : LStr) : List LStr → TState → List LStr × TState
  | [], s => ([], s)
  | e :: rest, s =>
    match requires env e ext s with
    | (.error _, s1) => discoverLoop env ext rest s1
    | (.ok cap, s1) =>
      let s2 := { s1 with required := setA e cap s1.required, installed := setA ext e s1.installed }
      let (found, s3) := discoverLoop env ext rest s2
      (e :: found, s3)

/-- Temper.prototype.discover (src/unnamed/part_000 lines 165-208): an
already-bound extension returns its binding at once; an unsupported
extension throws; otherwise the candidates are probed and the first
success is returned, or the no-engine error naming the top-ranked
candidate is thrown. -/
def discover (env : Env) (file : LStr) (s : TState) : Except TErr LStr × TState :=
  let ext := extnameOf file
  match List.lookup ext s.installed with
  | some e => (.ok e, s)
  | none =>
    match supported ext with
    | none => (.error (.unknownExtension ext), s)
    | some list =>
      match discoverLoop env ext list s with
      | (e :: _, s1) => (.ok e, s1)
      | ([], s1) => (.error (.noEngine (list.headD [])), s1)

/-- The per-engine switch of compile (src/unnamed/part_000 lines
229-343): the server and client artifacts (the external compilers are
opaque, their outputs wrapped or renamed exactly as the source does) and
the optional client-library path. -/
def engineParts (env : Env) (template nm : LStr) (eng : LStr) :
    Option (ServerVal × ClientVal × Option LStr) :=
  if eng = ls "hogan.js" then
    some (.ext eng (env.extServer eng template), .str (hoganWrap (env.extClient eng template)),
      some (env.resolveDir eng ++ ls "/template.js"))
  else if eng = ls "handlebars" then
    some (.ext eng (env.extServer eng template), .str (env.extClient eng template),
      some (env.resolveDir eng ++ ls "/../dist/handlebars.runtime.js"))
  else if eng = ls "ejs" then
    some (.ext eng (env.extServer eng template),
      .str (transform (env.extClient eng template) nm), none)
  else if eng = ls "jade" then
    some (.ext eng (env.extServer eng template),
      .str (transform (env.extClient eng template) nm),
      some (env.resolveDir eng ++ ls "/runtime.js"))
  else if eng = ls "react-jsx" then
    some (.ext eng (env.extServer eng template),
      .str (transform (env.extClient eng template) nm), none)
  else if eng = ls "html" then
    some (.htmlTpl template, .htmlClient nm template, none)
  else none

/-- Temper.prototype.compile (src/unnamed/part_000 lines 225-363):
require the engine, run the per-engine switch, read the client library
through the file cache when one applies, and hash the three pieces.  An
unknown engine leaves client and server undefined and the hashing step
then throws a TypeError. -/
def compile (env : Env) (template eng nm filename : LStr) (s : TState) :
    Except TErr Artifact × TState :=
  match requires env eng (extnameOf filename) s with
  | (.error err, s1) => (.error err, s1)
  | (.ok _, s1) =>
    match engineParts env template nm eng with
    | none => (.error .typeError, s1)
    | some (server, client, libPath) =>
      match libPath with
      | none => (.ok (mkArt env [] client server eng), s1)
      | some p =>
        match Temper.read env p s1 with
        | (.error err, s2) => (.error err, s2)
        | (.ok lib, s2) => (.ok (mkArt env lib client server eng), s2)

/-- Temper.prototype.prefetch, also exposed as fetch
(src/unnamed/part_000 lines 125-139): return the cached artifact if
present; otherwise read the file, resolve the engine (an explicit engine
argument wins over discovery), compile, and store the artifact only when
caching is enabled. -/
def prefetch (env : Env) (file : LStr) (engineOpt : Option LStr) (s : TState) :
    Except TErr Artifact × TState :=
  match List.lookup file s.compiled with
  | some a => (.ok a, s)
  | none =>
    match Temper.read env file s with
    | (.error err, s1) => (.error err, s1)
    | (.ok template, s1) =>
      match (match engineOpt with | some e => (Except.ok e, s1) | none => discover env file s1) with
      | (.error err, s2) => (.error err, s2)
      | (.ok eng, s2) =>
        match compile env template eng (normalizeName file) file s2 with
        | (.error err, s3) => (.error err, s3)
        | (.ok art, s3) =>
          if s3.cache then (.ok art, { s3 with compiled := setA file art s3.compiled })
          else (.ok art, s3)

/-- fetch is an alias of prefetch on the prototype
(src/unnamed/part_000 lines 125-126). -/
abbrev fetch := prefetch

/-- A candidate engine loads at state s: it is already cached in the
require cache, or it is the special html null capability, or the
environment can load it. -/
def canLoadB (env : Env) (s : TState) (e : LStr) : Bool :=
  (List.lookup e s.required).isSome || e == ls "html" || env.modules e

/-- Invariant relating a state reached during discovery to the starting
state: the require cache only grew, and only by loadable engines. -/
def ReqInv (env : Env) (s s' : TState) : Prop :=
  (∀ e, (List.lookup e s.required).isSome → (List.lookup e s'.required).isSome) ∧
  (∀ e, (List.lookup e s'.required).isSome → canLoadB env s e = true)

/-- The instance fields as nullable slots, for modelling the teardown of
src/index.js, whose destroy nulls every field (src/index.js line 376). -/
structure TemperInst where
  installed : Option (List (LStr × LStr))
  required : Option (List (LStr × Option Unit))
  compiled : Option (List (LStr × Artifact))
  file : Option (List (LStr × LStr))
  timers : Option (List LStr)
deriving DecidableEq

namespace IndexJs

/-- Temper.prototype.destroy as written in src/index.js lines 372-379:
the guard returns false at once while the timers object is live, and
were the timers slot ever null the next line would dereference null and
throw a TypeError. -/
def destroy (s : TemperInst) : Except TErr (Bool × TemperInst) :=
  if s.timers.isSome then .ok (false, s)
  else .error .typeError

end IndexJs

/-- A live instance with every cache populated and a timer pending. -/
def freshInst : TemperInst :=
  { installed := some [(ls ".jade", ls "jade")],
    required := some [(ls "jade", some ())],
    compiled := some [],
    file := some [(ls "/tmp/a.jade", ls "h1 hi")],
    timers := some [ls "require-jade"] }

/-- An environment in which every module loads and the opaque
collaborators return fixed values. -/
def envAll : Env :=
  { modules := fun _ => true, fs := fun _ => none,
    extServer := fun _ _ => [], extClient := fun _ _ => [],
    resolveDir := fun _ => [], md5 := fun _ => [],
    serverToString := fun _ => [], newFnText := fun _ => [] }

/-- An environment in which no module loads and no file is readable. -/
def envNone : Env := { envAll with modules := fun _ => false }

/-- An environment whose filesystem serves one html template. -/
def envHtml : Env :=
  { envNone with
    fs := fun p => if p = ls "/t/x.html" then some (ls "<h1>{key}</h1>") else none }

/-- A freshly constructed instance with caching enabled. -/
def st0 : TState :=
  { installed := [], required := [], compiled := [], file := [], timers := [], cache := true }

/-- The artifact prefetch produces for the template of envHtml. -/
def artW : Artifact :=
  { library := [], client := .htmlClient (ls "x") (ls "<h1>{key}</h1>"),
    server := .htmlTpl (ls "<h1>{key}</h1>"), engine := ls "html",
    hashLibrary := [], hashClient := [], hashServer := [] }

/-- The state after that first prefetch. -/
def s1W : TState :=
  { installed := [(ls ".html", ls "html")],
    required := [(ls "html", none)],
    compiled := [(ls "/t/x.html", artW)],
    file := [(ls "/t/x.html", ls "<h1>{key}</h1>")],
    timers := [ls "read-" ++ ls "/t/x.html", ls "require-" ++ ls "html"],
    cache := true }

/- Helper lemmas about the string model. -/

theorem replaceAllAux_congr (pat rep : LStr) :
    ∀ (f1 : Nat) (s : LStr) (f2 : Nat), s.length ≤ f1 → s.length ≤ f2 →
      replaceAllAux pat rep f1 s = replaceAllAux pat rep f2 s := by
  intro f1
  induction f1 with
  | zero =>
    intro s f2 h1 _
    have hs : s = [] := List.length_eq_zero.mp (Nat.le_zero.mp h1)
    subst hs
    cases f2 <;> rfl
  | succ f1 ih =>
    intro s f2 h1 h2
    cases s with
    | nil => cases f2 <;> rfl
    | cons c rest =>
      cases f2 with
      | zero => exact absurd h2 (by simp)
      | succ f2 =>
        simp only [replaceAllAux]
        by_cases h : pat.isPrefixOf (c :: rest) ∧ pat ≠ []
        · rw [if_pos h, if_pos h]
          have hp : 0 < pat.length := List.length_pos.mpr h.2
          have hd : (List.drop pat.length (c :: rest)).length ≤ f1 := by
            simp only [List.length_drop, List.length_cons]
            simp only [List.length_cons] at h1
            omega
          have hd2 : (List.drop pat.length (c :: rest)).length ≤ f2 := by
            simp only [List.length_drop, List.length_cons]
            simp only [List.length_cons] at h2
            omega
          rw [ih _ f2 hd hd2]
        · rw [if_neg h, if_neg h]
          have hr : rest.length ≤ f1 := by
            simp only [List.length_cons] at h1
            omega
          have hr2 : rest.length ≤ f2 := by
            simp only [List.length_cons] at h2
            omega
          rw [ih _ f2 hr hr2]

theorem replaceAll_nil (pat rep : LStr) : replaceAll pat rep [] = [] := rfl

theorem replaceAll_cons_of_not (pat rep : LStr) (c : Char) (rest : LStr)
    (h : ¬(pat.isPrefixOf (c :: rest) ∧ pat ≠ [])) :
    replaceAll pat rep (c :: rest) = c :: replaceAll pat rep rest := by
  show replaceAllAux pat rep (rest.length + 1) (c :: rest) = _
  simp only [replaceAllAux, if_neg h]
  rfl

theorem replaceAll_cons_of_hit (pat rep : LStr) (c : Char) (rest : LStr)
    (h : pat.isPrefixOf (c :: rest) ∧ pat ≠ []) :
    replaceAll pat rep (c :: rest) = rep ++ replaceAll pat rep (List.drop pat.length (c :: rest)) := by
  show replaceAllAux pat rep (rest.length + 1) (c :: rest) = _
  simp only [replaceAllAux, if_pos h]
  have hp : 0 < pat.length := List.length_pos.mpr h.2
  have hd : (List.drop pat.length (c :: rest)).length ≤ rest.length := by
    simp only [List.length_drop, List.length_cons]
    omega
  rw [replaceAllAux_congr pat rep rest.length (List.drop pat.length (c :: rest)) _ hd (Nat.le_refl _)]
  rfl

theorem isPrefixOf_self_append (l r : LStr) : l.isPrefixOf (l ++ r) = true := by
  induction l with
  | nil => simp [List.isPrefixOf]
  | cons c l ih => simp [List.isPrefixOf, ih]

theorem isPrefixOf_refl (l : LStr) : l.isPrefixOf l = true := by
  have h := isPrefixOf_self_append l []
  simpa using h

theorem replaceAll_skip (p rep l rest : LStr) (hl : '{' ∉ l) :
    replaceAll ('{' :: p) rep (l ++ rest) = l ++ replaceAll ('{' :: p) rep rest := by
  induction l with
  | nil => simp
  | cons c l ih =>
    have hc : ('{' == c) = false := by
      refine beq_eq_false_iff_ne.mpr (fun h => hl ?_)
      exact h ▸ List.mem_cons_self c l
    rw [List.cons_append, replaceAll_cons_of_not]
    · rw [ih (fun hm => hl (List.mem_cons_of_mem c hm)), List.cons_append]
    · intro hand
      have := hand.1
      simp [List.isPrefixOf, hc] at this

theorem replaceAll_id (p rep l : LStr) (hl : '{' ∉ l) :
    replaceAll ('{' :: p) rep l = l := by
  have h := replaceAll_skip p rep l [] hl
  simpa [replaceAll_nil] using h

theorem replaceAll_hit (k rep rest : LStr) :
    replaceAll ('{' :: (k ++ ['}'])) rep ('{' :: (k ++ '}' :: rest)) =
      rep ++ replaceAll ('{' :: (k ++ ['}'])) rep rest := by
  have htext : '{' :: (k ++ '}' :: rest) = ('{' :: (k ++ ['}'])) ++ rest := by simp
  rw [htext]
  have hsh : ('{' :: (k ++ ['}'])) ++ rest = '{' :: ((k ++ ['}']) ++ rest) := by simp
  rw [hsh, replaceAll_cons_of_hit]
  · have hd : List.drop ('{' :: (k ++ ['}'])).length ('{' :: ((k ++ ['}']) ++ rest)) = rest := by
      have := List.drop_left ('{' :: (k ++ ['}'])) rest
      simpa using this
    rw [hd]
  · constructor
    · have := isPrefixOf_self_append ('{' :: (k ++ ['}'])) rest
      simpa using this
    · simp

theorem prefixOf_close_false (k : LStr) : ∀ (n rest : LStr), '}' ∉ k → '}' ∉ n → k ≠ n →
    ((k ++ ['}']).isPrefixOf (n ++ '}' :: rest)) = false := by
  induction k with
  | nil =>
    intro n rest _ hn hne
    cases n with
    | nil => exact absurd rfl hne
    | cons d n' =>
      have hd : ('}' == d) = false := by
        refine beq_eq_false_iff_ne.mpr (fun h => hn ?_)
        simp [h.symm]
      simp [List.isPrefixOf, hd]
  | cons c k' ih =>
    intro n rest hk hn hne
    cases n with
    | nil =>
      have hc : (c == '}') = false := by
        refine beq_eq_false_iff_ne.mpr (fun h => hk ?_)
        simp [h]
      simp [List.isPrefixOf, hc]
    | cons d n' =>
      by_cases hcd : c = d
      · subst hcd
        have hk' : '}' ∉ k' := fun hm => hk (List.mem_cons_of_mem c hm)
        have hn' : '}' ∉ n' := fun hm => hn (List.mem_cons_of_mem c hm)
        have hne' : k' ≠ n' := fun h => hne (by rw [h])
        simp [List.isPrefixOf, ih n' rest hk' hn' hne']
      · have hc : (c == d) = false := beq_eq_false_iff_ne.mpr hcd
        simp [List.isPrefixOf, hc]

theorem replaceAll_hole_miss (k n rep rest : LStr) (hk2 : '}' ∉ k)
    (hn1 : '{' ∉ n) (hn2 : '}' ∉ n) (hne : n ≠ k) :
    replaceAll ('{' :: (k ++ ['}'])) rep ('{' :: (n ++ '}' :: rest)) =
      '{' :: (n ++ '}' :: replaceAll ('{' :: (k ++ ['}'])) rep rest) := by
  have hpre : ((k ++ ['}']).isPrefixOf (n ++ '}' :: rest)) = false :=
    prefixOf_close_false k n rest hk2 hn2 (fun h => hne h.symm)
  rw [replaceAll_cons_of_not]
  · rw [replaceAll_skip (k ++ ['}']) rep n ('}' :: rest) hn1]
    rw [replaceAll_cons_of_not]
    intro hand
    have := hand.1
    simp [List.isPrefixOf] at this
  · intro hand
    have := hand.1
    simp [List.isPrefixOf, hpre] at this

theorem hasSub_append_self (a n : LStr) : hasSub n (a ++ n) = true := by
  induction a with
  | nil =>
    cases n with
    | nil => rfl
    | cons c r => simp [hasSub, isPrefixOf_refl]
  | cons d a ih => simp [hasSub, ih]

/- Template-decomposition lemmas for the pass-through backend. -/

theorem substData_nil_eq : ∀ t : Tpl, t.substData [] = t := by
  intro t
  induction t with
  | nil => rfl
  | lit s r ih => simp [Tpl.substData, ih]
  | hole n r ih => simp [Tpl.substData, List.lookup, ih]

theorem substData_cons (kv : LStr × LStr) (d : List (LStr × LStr)) :
    ∀ t : Tpl, t.substData (kv :: d) = (t.substKey kv.1 kv.2).substData d := by
  intro t
  induction t with
  | nil => rfl
  | lit s r ih => simp [Tpl.substData, Tpl.substKey, ih]
  | hole n r ih =>
    by_cases h : n = kv.1
    · have hb : (n == kv.1) = true := beq_iff_eq.mpr h
      simp [Tpl.substData, Tpl.substKey, List.lookup, hb, h, ih]
    · have hb : (n == kv.1) = false := beq_eq_false_iff_ne.mpr h
      simp [Tpl.substData, Tpl.substKey, List.lookup, hb, h, ih]

theorem substKey_ok (k v : LStr) (hv : '{' ∉ v) : ∀ t : Tpl, t.ok → (t.substKey k v).ok := by
  intro t
  induction t with
  | nil => intro _; trivial
  | lit s r ih =>
    intro h
    exact ⟨h.1, ih h.2⟩
  | hole n r ih =>
    intro h
    by_cases hnk : n = k
    · simp only [Tpl.substKey, if_pos hnk]
      exact ⟨hv, ih h.2.2⟩
    · simp only [Tpl.substKey, if_neg hnk]
      exact ⟨h.1, h.2.1, ih h.2.2⟩

theorem substKey_flatten (k v : LStr) (hk1 : '{' ∉ k) (hk2 : '}' ∉ k) (hv : '{' ∉ v) :
    ∀ t : Tpl, t.ok → replaceAll ('{' :: (k ++ ['}'])) v t.flatten = (t.substKey k v).flatten := by
  intro t
  induction t with
  | nil =>
    intro _
    simp [Tpl.flatten, Tpl.substKey, replaceAll_nil]
  | lit s r ih =>
    intro h
    simp only [Tpl.flatten, Tpl.substKey]
    rw [replaceAll_skip (k ++ ['}']) v s r.flatten h.1, ih h.2]
  | hole n r ih =>
    intro h
    by_cases hnk : n = k
    · subst hnk
      simp only [Tpl.flatten, Tpl.substKey, if_pos rfl, List.cons_append]
      rw [replaceAll_hit n v r.flatten, ih h.2.2]
    · simp only [Tpl.flatten, Tpl.substKey, if_neg hnk, List.cons_append]
      rw [replaceAll_hole_miss k n v r.flatten hk2 h.1 h.2.1 hnk, ih h.2.2]

theorem foldl_replace_flatten (d : List (LStr × LStr)) :
    ∀ t : Tpl, t.ok → (∀ kv ∈ d, '{' ∉ kv.1 ∧ '}' ∉ kv.1) → (∀ kv ∈ d, '{' ∉ kv.2) →
      d.foldl (fun acc kv => replaceAll ('{' :: (kv.1 ++ ['}'])) kv.2 acc) t.flatten =
        (t.substData d).flatten := by
  induction d with
  | nil =>
    intro t _ _ _
    simp [substData_nil_eq]
  | cons kv d ih =>
    intro t ht hk hv
    have hm : kv ∈ kv :: d := List.mem_cons_self kv d
    simp only [List.foldl_cons]
    rw [substKey_flatten kv.1 kv.2 (hk kv hm).1 (hk kv hm).2 (hv kv hm) t ht]
    rw [substData_cons]
    exact ih (t.substKey kv.1 kv.2) (substKey_ok kv.1 kv.2 (hv kv hm) t ht)
      (fun kv' hm' => hk kv' (List.mem_cons_of_mem kv hm'))
      (fun kv' hm' => hv kv' (List.mem_cons_of_mem kv hm'))

theorem lookup_self_of_nodup :
    ∀ (d : List (LStr × LStr)), (d.map Prod.fst).Nodup →
      ∀ kv ∈ d, List.lookup kv.1 d = some kv.2 := by
  intro d
  induction d with
  | nil => intro _ kv hm; cases hm
  | cons hd tl ih =>
    intro hnd kv hm
    rcases List.mem_cons.mp hm with h | h
    · subst h
      simp [List.lookup]
    · have hne : kv.1 ≠ hd.1 := by
        intro he
        have : hd.1 ∈ tl.map Prod.fst := he ▸ List.mem_map_of_mem Prod.fst h
        exact (List.nodup_cons.mp (by simpa using hnd)).1 this
      have hb : (kv.1 == hd.1) = false := beq_eq_false_iff_ne.mpr hne
      simp only [List.lookup, hb]
      exact ih (List.nodup_cons.mp (by simpa using hnd)).2 kv h

theorem foldl_keys_pairs (o : JsObj) :
    ∀ (d : List (LStr × LStr)) (t : LStr),
      (∀ kv ∈ d, o.hasOwnB kv.1 = true ∧ o.getOwn kv.1 = kv.2) →
      (d.map Prod.fst).foldl
          (fun t key =>
            if o.hasOwnB key then replaceAll ('{' :: key ++ ['}']) (o.getOwn key) t else t) t
        = d.foldl (fun acc kv => replaceAll ('{' :: (kv.1 ++ ['}'])) kv.2 acc) t := by
  intro d
  induction d with
  | nil => intro t _; rfl
  | cons kv d ih =>
    intro t h
    have hm : kv ∈ kv :: d := List.mem_cons_self kv d
    simp only [List.map_cons, List.foldl_cons]
    rw [if_pos ((h kv hm).1), (h kv hm).2, List.cons_append]
    exact ih _ (fun kv' hm' => h kv' (List.mem_cons_of_mem kv hm'))

theorem html_nodup_fold (d : List (LStr × LStr)) (hnd : (d.map Prod.fst).Nodup) (t : LStr) :
    Temper.html t ⟨d, []⟩ =
      d.foldl (fun acc kv => replaceAll ('{' :: (kv.1 ++ ['}'])) kv.2 acc) t := by
  have hkeys : forInKeys ⟨d, []⟩ = d.map Prod.fst := by
    simp [forInKeys]
  rw [Temper.html, hkeys]
  exact foldl_keys_pairs ⟨d, []⟩ d t
    (fun kv hm => by
      constructor
      · simp [JsObj.hasOwnB, lookup_self_of_nodup d hnd kv hm]
      · simp [JsObj.getOwn, lookup_self_of_nodup d hnd kv hm])

theorem lookup_none_of_contains_false {α : Type} (k : LStr) :
    ∀ (l : List (LStr × α)), ((l.map Prod.fst).contains k) = false → List.lookup k l = none := by
  intro l
  induction l with
  | nil => intro _; rfl
  | cons kv tl ih =>
    intro h
    rw [List.map_cons, List.contains_cons] at h
    have h1 : (k == kv.1) = false := by
      cases hb : (k == kv.1) with
      | false => rfl
      | true => rw [hb, Bool.true_or] at h; exact Bool.noConfusion h
    have h2 : ((tl.map Prod.fst).contains k) = false := by
      cases hb : ((tl.map Prod.fst).contains k) with
      | false => rfl
      | true => rw [hb, Bool.or_true] at h; exact Bool.noConfusion h
    simp only [List.lookup, h1]
    exact ih h2

/-- C3: for the pass-through (html) backend, on any template whose
literal runs and placeholder names do not collide with the substitution
syntax and any data record with brace-free keys and values, every
placeholder whose name is a key of the record is replaced by the
record's value for it, unknown placeholders are left verbatim (this is
the simultaneous substitution substData), and evaluating the generated
client on a record yields exactly what the server closure yields. -/
theorem C3_passthrough_substitution :
    (∀ (t : Tpl) (d : List (LStr × LStr)),
        t.ok → (∀ kv ∈ d, '{' ∉ kv.1 ∧ '}' ∉ kv.1) → (∀ kv ∈ d, '{' ∉ kv.2) →
        (d.map Prod.fst).Nodup →
        Temper.html t.flatten ⟨d, []⟩ = (t.substData d).flatten) ∧
    (∀ (nm tpl : LStr) (d : Option JsObj),
        ClientVal.eval (.htmlClient nm tpl) d = ServerVal.eval (.htmlTpl tpl) d) := by
  constructor
  · intro t d ht hk hv hnd
    rw [html_nodup_fold d hnd t.flatten]
    exact foldl_replace_flatten d t ht hk hv
  · intro nm tpl d
    rfl

/-- C3 witness: the concrete template of the test suite, rendered
through the theorem at the obvious decomposition. -/
theorem C3_witness :
    Temper.html (ls "<h1>{key}</h1>") ⟨[(ls "key", ls "bar")], []⟩ = ls "<h1>bar</h1>" := by
  have h := C3_passthrough_substitution.1
      (Tpl.lit (ls "<h1>") (Tpl.hole (ls "key") (Tpl.lit (ls "</h1>") Tpl.nil)))
      [(ls "key", ls "bar")]
      ⟨by decide, by decide, by decide, by decide, trivial⟩
      (by decide) (by decide) (by decide)
  have e1 : (Tpl.lit (ls "<h1>") (Tpl.hole (ls "key") (Tpl.lit (ls "</h1>") Tpl.nil))).flatten
      = ls "<h1>{key}</h1>" := by decide
  have e2 : ((Tpl.lit (ls "<h1>") (Tpl.hole (ls "key") (Tpl.lit (ls "</h1>") Tpl.nil))).substData
      [(ls "key", ls "bar")]).flatten = ls "<h1>bar</h1>" := by decide
  rw [e1, e2] at h
  exact h

/-- C9: the pass-through substitution inserts a data value verbatim,
whatever characters it contains (in particular regex replacement
sequences built from the dollar sign), because the source passes a
function replacer to String.replace; the inserted value never expands
into the surrounding template text. -/
theorem C9_dollar_sequences_inert :
    ∀ (pre k v post : LStr), '{' ∉ pre → '{' ∉ post → '{' ∉ k → '}' ∉ k → '{' ∉ v →
      Temper.html (pre ++ '{' :: k ++ '}' :: post) ⟨[(k, v)], []⟩ = pre ++ v ++ post := by
  intro pre k v post hpre hpost hk1 hk2 hv
  have hkeys : forInKeys ⟨[(k, v)], []⟩ = [k] := by simp [forInKeys]
  have hown : JsObj.hasOwnB ⟨[(k, v)], []⟩ k = true := by simp [JsObj.hasOwnB, List.lookup]
  have hget : JsObj.getOwn ⟨[(k, v)], []⟩ k = v := by simp [JsObj.getOwn, List.lookup]
  rw [Temper.html, hkeys]
  simp only [List.foldl_cons, List.foldl_nil, hown, if_pos, hget, List.cons_append]
  have hshape : pre ++ ('{' :: k) ++ '}' :: post = pre ++ ('{' :: (k ++ '}' :: post)) := by simp
  rw [hshape, replaceAll_skip (k ++ ['}']) v pre ('{' :: (k ++ '}' :: post)) hpre]
  rw [replaceAll_hit k v post]
  rw [replaceAll_id (k ++ ['}']) v post hpost, List.append_assoc]

/-- C9 witness: the value from the test suite containing a dollar-quote
sequence is inserted verbatim. -/
theorem C9_witness :
    Temper.html (ls "<h1>" ++ '{' :: ls "key" ++ '}' :: ls "</h1>")
        ⟨[(ls "key", '$' :: apos :: ls "bar")], []⟩
      = ls "<h1>" ++ ('$' :: apos :: ls "bar") ++ ls "</h1>" :=
  C9_dollar_sequences_inert (ls "<h1>") (ls "key") ('$' :: apos :: ls "bar") (ls "</h1>")
    (by decide) (by decide) (by decide) (by decide) (by decide)

/-- C10: the pass-through substitution uses only the record's own
enumerable properties (rendering with any prototype equals rendering
with the prototype removed, so inherited properties are never
substituted and a null-prototype record works); the server closure
called with no data argument returns the source unchanged; and a
concrete record with an inherited property leaves that placeholder
verbatim while the own property is substituted. -/
theorem C10_own_properties_only :
    (∀ (tpl : LStr) (o : JsObj), Temper.html tpl o = Temper.html tpl ⟨o.own, []⟩) ∧
    (∀ tpl : LStr, htmlServerFn tpl none = tpl) ∧
    Temper.html (ls "<h1>{key}{inherited}</h1>")
        ⟨[(ls "key", ls "bar")], [(ls "inherited", ls "zap")]⟩
      = ls "<h1>bar{inherited}</h1>" := by
  refine ⟨?_, ?_, by decide⟩
  · intro tpl o
    have hsplit : forInKeys o =
        o.own.map Prod.fst ++
          (o.proto.map Prod.fst).filter (fun k => !((o.own.map Prod.fst).contains k)) := rfl
    have hkeys2 : forInKeys ⟨o.own, []⟩ = o.own.map Prod.fst := by simp [forInKeys]
    rw [Temper.html, Temper.html, hsplit, hkeys2, List.foldl_append]
    have hid : ∀ (ks : List LStr) (t : LStr),
        (∀ k ∈ ks, JsObj.hasOwnB o k = false) →
        ks.foldl (fun t key =>
          if JsObj.hasOwnB o key then replaceAll ('{' :: key ++ ['}']) (JsObj.getOwn o key) t
          else t) t = t := by
      intro ks
      induction ks with
      | nil => intro t _; rfl
      | cons k ks ih =>
        intro t h
        simp only [List.foldl_cons, h k (List.mem_cons_self k ks), if_neg, Bool.false_eq_true,
          not_false_eq_true]
        exact ih t (fun k' hm => h k' (List.mem_cons_of_mem k hm))
    have hproto : ∀ k ∈ (o.proto.map Prod.fst).filter
        (fun k => !((o.own.map Prod.fst).contains k)), JsObj.hasOwnB o k = false := by
      intro k hm
      have hnot := List.of_mem_filter hm
      have hcf : ((o.own.map Prod.fst).contains k) = false := by
        cases hb : ((o.own.map Prod.fst).contains k) with
        | false => rfl
        | true => rw [hb] at hnot; simp at hnot
      simp [JsObj.hasOwnB, lookup_none_of_contains_false k o.own hcf]
    rw [hid _ _ hproto]
    simp only [JsObj.hasOwnB, JsObj.getOwn]
  · intro tpl
    rfl

/- Discovery machinery lemmas. -/

theorem lookup_setA_self {α : Type} (k : LStr) (v : α) :
    ∀ l : List (LStr × α), List.lookup k (setA k v l) = some v := by
  intro l
  induction l with
  | nil => simp [setA, List.lookup]
  | cons kv tl ih =>
    by_cases h : kv.1 = k
    · simp [setA, h, List.lookup]
    · have hb : (k == kv.1) = false := beq_eq_false_iff_ne.mpr (fun he => h he.symm)
      simp only [setA, if_neg h, List.lookup, hb]
      exact ih

theorem lookup_setA_ne {α : Type} (k k' : LStr) (v : α) (h : k' ≠ k) :
    ∀ l : List (LStr × α), List.lookup k' (setA k v l) = List.lookup k' l := by
  intro l
  induction l with
  | nil => simp [setA, List.lookup, beq_eq_false_iff_ne.mpr h]
  | cons kv tl ih =>
    by_cases hk : kv.1 = k
    · subst hk
      simp [setA, List.lookup, beq_eq_false_iff_ne.mpr h]
    · simp only [setA, if_neg hk, List.lookup]
      cases hb : (k' == kv.1) with
      | true => rfl
      | false => exact ih

theorem requires_fail (env : Env) (e x : LStr) (s : TState) (h : canLoadB env s e = false) :
    requires env e x s = (.error (.moduleMissing e x), s) := by
  unfold canLoadB at h
  have h1 : (List.lookup e s.required).isSome = false := by
    cases hb : (List.lookup e s.required).isSome with
    | false => rfl
    | true => rw [hb] at h; simp at h
  have h2 : (e == ls "html") = false := by
    cases hb : (e == ls "html") with
    | false => rfl
    | true => rw [hb] at h; simp at h
  have h3 : env.modules e = false := by
    cases hb : env.modules e with
    | false => rfl
    | true => rw [hb] at h; simp at h
  have hnone : List.lookup e s.required = none := Option.not_isSome_iff_eq_none.mp (by simp [h1])
  rw [requires, hnone]
  rw [if_neg (beq_eq_false_iff_ne.mp h2), if_neg (by simp [h3])]

theorem requires_ok (env : Env) (e x : LStr) (s : TState) (h : canLoadB env s e = true) :
    ∃ cap s1, requires env e x s = (.ok cap, s1) ∧
      s1.installed = s.installed ∧ s1.compiled = s.compiled ∧ s1.file = s.file ∧
      s1.cache = s.cache ∧
      (∀ e', (List.lookup e' s.required).isSome → (List.lookup e' s1.required).isSome) ∧
      (∀ e', (List.lookup e' s1.required).isSome →
        (List.lookup e' s.required).isSome = true ∨ e' = e) := by
  cases hl : List.lookup e s.required with
  | some cap =>
    refine ⟨cap, s, ?_, rfl, rfl, rfl, rfl, fun _ h => h, fun _ h => Or.inl h⟩
    rw [requires, hl]
  | none =>
    by_cases hh : e = ls "html"
    · refine ⟨none,
        addTimer (ls "require-" ++ e) { s with required := setA e none s.required },
        ?_, rfl, rfl, rfl, rfl, ?_, ?_⟩
      · rw [requires, hl, if_pos hh]
      · intro e' he'
        by_cases hee : e' = e
        · subst hee; simp [addTimer, lookup_setA_self]
        · simpa [addTimer, lookup_setA_ne e e' _ hee] using he'
      · intro e' he'
        by_cases hee : e' = e
        · exact Or.inr hee
        · rw [show ((addTimer (ls "require-" ++ e)
              { s with required := setA e none s.required }).required)
              = setA e none s.required from rfl] at he'
          rw [lookup_setA_ne e e' none hee s.required] at he'
          exact Or.inl he'
    · have hm : env.modules e = true := by
        unfold canLoadB at h
        rw [hl] at h
        rw [beq_eq_false_iff_ne.mpr hh] at h
        simpa using h
      refine ⟨some (),
        addTimer (ls "require-" ++ e) { s with required := setA e (some ()) s.required },
        ?_, rfl, rfl, rfl, rfl, ?_, ?_⟩
      · rw [requires, hl, if_neg hh, if_pos hm]
      · intro e' he'
        by_cases hee : e' = e
        · subst hee; simp [addTimer, lookup_setA_self]
        · simpa [addTimer, lookup_setA_ne e e' _ hee] using he'
      · intro e' he'
        by_cases hee : e' = e
        · exact Or.inr hee
        · rw [show ((addTimer (ls "require-" ++ e)
              { s with required := setA e (some ()) s.required }).required)
              = setA e (some ()) s.required from rfl] at he'
          rw [lookup_setA_ne e e' (some ()) hee s.required] at he'
          exact Or.inl he'

theorem canLoad_congr (env : Env) (s s' : TState) (hinv : ReqInv env s s') (e : LStr) :
    canLoadB env s' e = canLoadB env s e := by
  cases hl : (List.lookup e s'.required).isSome with
  | true =>
    have h2 := hinv.2 e hl
    unfold canLoadB at h2 ⊢
    rw [hl, h2]
    simp
  | false =>
    have h1 : (List.lookup e s.required).isSome = false := by
      cases hb : (List.lookup e s.required).isSome with
      | false => rfl
      | true => rw [hinv.1 e hb] at hl; exact Bool.noConfusion hl
    unfold canLoadB
    rw [hl, h1]

theorem reqInv_refl (env : Env) (s : TState) : ReqInv env s s :=
  ⟨fun _ h => h, fun e h => by unfold canLoadB; rw [h]; simp⟩

theorem discoverLoop_spec (env : Env) (ext : LStr) :
    ∀ (list : List LStr) (s s' : TState), ReqInv env s s' → s'.cache = s.cache →
      (discoverLoop env ext list s').1 = list.filter (canLoadB env s) ∧
      ReqInv env s (discoverLoop env ext list s').2 ∧
      (discoverLoop env ext list s').2.cache = s.cache ∧
      List.lookup ext (discoverLoop env ext list s').2.installed =
        (list.filter (canLoadB env s)).foldl (fun _ e => some e)
          (List.lookup ext s'.installed) ∧
      (list.filter (canLoadB env s) = [] → (discoverLoop env ext list s').2 = s') := by
  intro list
  induction list with
  | nil =>
    intro s s' hinv hc
    exact ⟨rfl, hinv, hc, rfl, fun _ => rfl⟩
  | cons e rest ih =>
    intro s s' hinv hc
    cases hce : canLoadB env s e with
    | false =>
      have hce' : canLoadB env s' e = false := by rw [canLoad_congr env s s' hinv e, hce]
      have hreq := requires_fail env e ext s' hce'
      have hfilter : (e :: rest).filter (canLoadB env s) = rest.filter (canLoadB env s) := by
        simp [List.filter_cons, hce]
      have hloop : discoverLoop env ext (e :: rest) s' = discoverLoop env ext rest s' := by
        rw [discoverLoop, hreq]
      obtain ⟨hf, hi, hcc, hins, hnil⟩ := ih s s' hinv hc
      rw [hloop, hfilter]
      exact ⟨hf, hi, hcc, hins, hnil⟩
    | true =>
      have hce' : canLoadB env s' e = true := by rw [canLoad_congr env s s' hinv e, hce]
      obtain ⟨cap, s1, hreq, hins1, hcomp1, hfile1, hch1, hmono1, hbound1⟩ :=
        requires_ok env e ext s' hce'
      have hinv2 : ReqInv env s
          { s1 with required := setA e cap s1.required,
                    installed := setA ext e s1.installed } := by
        constructor
        · intro e' he'
          show (List.lookup e' (setA e cap s1.required)).isSome = true
          by_cases hee : e' = e
          · subst hee
            rw [lookup_setA_self]
            rfl
          · rw [lookup_setA_ne e e' cap hee s1.required]
            exact hmono1 e' (hinv.1 e' he')
        · intro e' he'
          change (List.lookup e' (setA e cap s1.required)).isSome = true at he'
          by_cases hee : e' = e
          · subst hee; exact hce
          · rw [lookup_setA_ne e e' cap hee s1.required] at he'
            rcases hbound1 e' he' with h | h
            · exact hinv.2 e' h
            · exact absurd h hee
      have hc2 : ({ s1 with required := setA e cap s1.required,
                            installed := setA ext e s1.installed } : TState).cache = s.cache := by
        show s1.cache = s.cache
        rw [hch1, hc]
      obtain ⟨hf, hi, hcc, hins, _⟩ := ih s _ hinv2 hc2
      rcases hdl : discoverLoop env ext rest
          { s1 with required := setA e cap s1.required,
                    installed := setA ext e s1.installed } with ⟨found, s3⟩
      rw [hdl] at hf hi hcc hins
      have hloop : discoverLoop env ext (e :: rest) s' = (e :: found, s3) := by
        simp only [discoverLoop]
        rw [hreq]
        simp only [hdl]
      have hfilter : (e :: rest).filter (canLoadB env s) = e :: rest.filter (canLoadB env s) := by
        simp [List.filter_cons, hce]
      rw [hloop, hfilter]
      refine ⟨by simpa using hf, by simpa using hi, by simpa using hcc, ?_,
        by intro h; exact absurd h (by simp)⟩
      simp only [List.foldl_cons]
      change List.lookup ext s3.installed = _
      change List.lookup ext s3.installed =
        List.foldl (fun _ e => some e)
          (List.lookup ext (setA ext e s1.installed)) (rest.filter (canLoadB env s)) at hins
      rw [lookup_setA_self ext e s1.installed] at hins
      exact hins

theorem foldl_some_getLastD : ∀ (l : List LStr) (a : LStr),
    l.foldl (fun _ e => some e) (some a) = some (l.getLastD a) := by
  intro l
  induction l with
  | nil => intro a; rfl
  | cons b l ih =>
    intro a
    rw [List.foldl_cons, ih b, List.getLastD_cons]

/-- C1 (amended): on a first discovery for an extension with at least
one loadable candidate, discover returns the first candidate that loads
successfully, but it probes every candidate and memoizes the last
successful one as the extension's binding; every later call for the
same extension returns that memoized binding without re-probing. -/
theorem C1_discover_last_success_sticky (env : Env) (s : TState) (file : LStr)
    (list : List LStr)
    (hins : List.lookup (extnameOf file) s.installed = none)
    (hsup : supported (extnameOf file) = some list)
    (hne : list.filter (canLoadB env s) ≠ []) :
    ∃ s1 : TState,
      discover env file s = (.ok ((list.filter (canLoadB env s)).headD []), s1) ∧
      List.lookup (extnameOf file) s1.installed =
        some ((list.filter (canLoadB env s)).getLastD []) ∧
      discover env file s1 = (.ok ((list.filter (canLoadB env s)).getLastD []), s1) := by
  obtain ⟨hf, _, _, hlook, _⟩ :=
    discoverLoop_spec env (extnameOf file) list s s (reqInv_refl env s) rfl
  rcases hdl : discoverLoop env (extnameOf file) list s with ⟨found, s1⟩
  rw [hdl] at hf hlook
  simp only at hf hlook
  cases hfc : list.filter (canLoadB env s) with
  | nil => exact absurd hfc hne
  | cons e0 f' =>
    rw [hfc] at hf hlook
    have hlast : List.lookup (extnameOf file) s1.installed = some (f'.getLastD e0) := by
      rw [hlook, List.foldl_cons, foldl_some_getLastD]
    refine ⟨s1, ?_, ?_, ?_⟩
    · simp only [discover, hins, hsup, hdl, hf, List.headD_cons]
    · rw [hlast, List.getLastD_cons]
    · simp only [discover, hlast, List.getLastD_cons]

/-- C1 counterexample: with every candidate module loadable, the first
discovery of a mustache path returns hogan.js but the second returns
handlebars, so the name returned later is not the first successful
candidate the claim promises. -/
theorem C1_counterexample :
    (discover envAll (ls "x.mustache") st0).1 = .ok (ls "hogan.js") ∧
    ((fun r => (discover envAll (ls "x.mustache") r.2).1)
        (discover envAll (ls "x.mustache") st0)) = .ok (ls "handlebars") ∧
    ls "handlebars" ≠ ls "hogan.js" := by
  decide

/-- C1 witness: the amended theorem applied to the mustache candidate
list with every module loadable. -/
theorem C1_witness :
    ∃ s1 : TState,
      discover envAll (ls "x.mustache") st0 =
        (.ok ((([ls "hogan.js", ls "mustache", ls "handlebars"]).filter
          (canLoadB envAll st0)).headD []), s1) ∧
      List.lookup (extnameOf (ls "x.mustache")) s1.installed =
        some ((([ls "hogan.js", ls "mustache", ls "handlebars"]).filter
          (canLoadB envAll st0)).getLastD []) ∧
      discover envAll (ls "x.mustache") s1 =
        (.ok ((([ls "hogan.js", ls "mustache", ls "handlebars"]).filter
          (canLoadB envAll st0)).getLastD []), s1) :=
  C1_discover_last_success_sticky envAll st0 (ls "x.mustache")
    [ls "hogan.js", ls "mustache", ls "handlebars"] (by decide) (by decide) (by decide)

/-- C6 (amended): when every ranked candidate for a supported extension
fails to load, discover throws the no-engine error built from the
first (top-ranked) candidate only, leaving the state untouched; the
message carries that first candidate's name so the caller can be told
which specific module to install. -/
theorem C6_noengine_names_first_candidate (env : Env) (s : TState) (file : LStr)
    (list : List LStr)
    (hins : List.lookup (extnameOf file) s.installed = none)
    (hsup : supported (extnameOf file) = some list)
    (hfail : ∀ e ∈ list, canLoadB env s e = false) :
    discover env file s = (.error (.noEngine (list.headD [])), s) ∧
    hasSub (list.headD []) (TErr.message (.noEngine (list.headD []))) = true := by
  have hfc : list.filter (canLoadB env s) = [] := by
    rw [List.filter_eq_nil_iff]
    intro e hm
    rw [hfail e hm]
    simp
  obtain ⟨hf, _, _, _, hnil⟩ :=
    discoverLoop_spec env (extnameOf file) list s s (reqInv_refl env s) rfl
  rcases hdl : discoverLoop env (extnameOf file) list s with ⟨found, s1⟩
  rw [hdl] at hf hnil
  simp only at hf hnil
  rw [hfc] at hf
  have hs1 : s1 = s := hnil hfc
  constructor
  · simp only [discover, hins, hsup, hdl, hf, hs1]
  · exact hasSub_append_self
      (ls "No compatible template engine installed, please run: npm install --save ")
      (list.headD [])

/-- C6 counterexample: with no module loadable, discovery for a
mustache path fails with the error naming only hogan.js; the name
handlebars was among the attempted candidates yet appears nowhere in
the error or its message, so the error does not carry all attempted
names. -/
theorem C6_counterexample :
    (discover envNone (ls "x.mustache") st0).1 = .error (.noEngine (ls "hogan.js")) ∧
    supported (ls ".mustache") = some [ls "hogan.js", ls "mustache", ls "handlebars"] ∧
    hasSub (ls "handlebars") (TErr.message (.noEngine (ls "hogan.js"))) = false := by
  decide

/-- C6 witness: the amended theorem applied to the mustache candidate
list with no module loadable. -/
theorem C6_witness :
    discover envNone (ls "x.mustache") st0 =
      (.error (.noEngine (([ls "hogan.js", ls "mustache", ls "handlebars"]).headD [])), st0) ∧
    hasSub (([ls "hogan.js", ls "mustache", ls "handlebars"]).headD [])
      (TErr.message (.noEngine (([ls "hogan.js", ls "mustache", ls "handlebars"]).headD [])))
      = true :=
  C6_noengine_names_first_candidate envNone st0 (ls "x.mustache")
    [ls "hogan.js", ls "mustache", ls "handlebars"] (by decide) (by decide) (by decide)

theorem read_cache (env : Env) (f : LStr) (s : TState) :
    (Temper.read env f s).2.cache = s.cache := by
  unfold Temper.read
  split
  · rfl
  · split <;> rfl

theorem requires_cache (env : Env) (e x : LStr) (s : TState) :
    (requires env e x s).2.cache = s.cache := by
  unfold requires
  split
  · rfl
  · split
    · rfl
    · split <;> rfl

theorem discover_cache (env : Env) (file : LStr) (s : TState) :
    (discover env file s).2.cache = s.cache := by
  simp only [discover]
  split
  · rfl
  · split
    · rfl
    · rename_i list heq
      obtain ⟨_, _, hcc, _, _⟩ :=
        discoverLoop_spec env (extnameOf file) list s s (reqInv_refl env s) rfl
      rcases hdl : discoverLoop env (extnameOf file) list s with ⟨found, s1⟩
      have hcc' : s1.cache = s.cache := by rw [hdl] at hcc; exact hcc
      cases found with
      | nil => exact hcc'
      | cons e0 f' => exact hcc'

theorem compile_cache (env : Env) (template eng nm filename : LStr) (s : TState) :
    (compile env template eng nm filename s).2.cache = s.cache := by
  unfold compile
  rcases hr : requires env eng (extnameOf filename) s with ⟨res, s1⟩
  have hc1 : s1.cache = s.cache := by
    have h := requires_cache env eng (extnameOf filename) s
    rw [hr] at h
    exact h
  cases res with
  | error err => exact hc1
  | ok cap =>
    cases hep : engineParts env template nm eng with
    | none => exact hc1
    | some parts =>
      rcases parts with ⟨server, client, libPath⟩
      cases libPath with
      | none => exact hc1
      | some p =>
        rcases hrd : Temper.read env p s1 with ⟨err | lib, s2⟩
        · have hc2 : s2.cache = s1.cache := by
            have h := read_cache env p s1
            rw [hrd] at h
            exact h
          simp only [hrd]
          exact hc2.trans hc1
        · have hc2 : s2.cache = s1.cache := by
            have h := read_cache env p s1
            rw [hrd] at h
            exact h
          simp only [hrd]
          exact hc2.trans hc1

/-- C2: with caching enabled, a successful fetch stores the returned
artifact under the path, and a second fetch for the same path returns
that identical stored artifact with the state untouched, whatever the
environment has become in the meantime (the second call never consults
the filesystem, so a changed file is irrelevant and nothing is
recomputed). -/
theorem C2_fetch_idempotent (env env2 : Env) (s : TState) (p : LStr) (a : Artifact)
    (s1 : TState) (hc : s.cache = true) (h : fetch env p none s = (.ok a, s1)) :
    List.lookup p s1.compiled = some a ∧ fetch env2 p none s1 = (.ok a, s1) := by
  have hmain : List.lookup p s1.compiled = some a := by
    simp only [fetch, prefetch] at h
    cases hl : List.lookup p s.compiled with
    | some a0 =>
      simp only [hl] at h
      simp only [Prod.mk.injEq, Except.ok.injEq] at h
      obtain ⟨ha, hs⟩ := h
      subst hs
      rw [hl, ha]
    | none =>
      simp only [hl] at h
      rcases hrd : Temper.read env p s with ⟨err | tpl, sA⟩
      · simp only [hrd] at h
        simp at h
      · simp only [hrd] at h
        rcases hd : discover env p sA with ⟨err | eng, sB⟩
        · simp only [hd] at h
          simp at h
        · simp only [hd] at h
          rcases hcm : compile env tpl eng (normalizeName p) p sB with ⟨err | art, sC⟩
          · simp only [hcm] at h
            simp at h
          · simp only [hcm] at h
            have hcA : sA.cache = s.cache := by
              have hx := read_cache env p s
              rw [hrd] at hx
              exact hx
            have hcB : sB.cache = s.cache := by
              have hx := discover_cache env p sA
              rw [hd] at hx
              exact hx.trans hcA
            have hcC : sC.cache = true := by
              have hx := compile_cache env tpl eng (normalizeName p) p sB
              rw [hcm] at hx
              rw [hx, hcB, hc]
            rw [if_pos hcC] at h
            simp only [Prod.mk.injEq, Except.ok.injEq] at h
            obtain ⟨ha, hs⟩ := h
            subst ha
            rw [← hs]
            exact lookup_setA_self p art sC.compiled
  refine ⟨hmain, ?_⟩
  simp only [fetch, prefetch, hmain]

/-- C2 witness: a first fetch of the html template stores the artifact;
a second fetch under an environment whose filesystem no longer serves
the file still returns the identical artifact and leaves the state
unchanged. -/
theorem C2_witness :
    List.lookup (ls "/t/x.html") s1W.compiled = some artW ∧
    fetch envNone (ls "/t/x.html") none s1W = (.ok artW, s1W) :=
  C2_fetch_idempotent envHtml envNone st0 (ls "/t/x.html") artW s1W rfl (by decide)

/-- C4: a failed require leaves the instance exactly as it was — the
engine is not stored in the require cache, no timer is scheduled, and
no negative result is memoized, so a later call with the module now
installed succeeds; and a failed read leaves the file cache exactly as
it was, returning no stale or partial content. -/
theorem C4_no_partial_mutation :
    (∀ (env : Env) (eng ext : LStr) (s : TState),
        List.lookup eng s.required = none → eng ≠ ls "html" → env.modules eng = false →
        requires env eng ext s = (.error (.moduleMissing eng ext), s)) ∧
    (∀ (env2 : Env) (eng ext : LStr) (s : TState),
        env2.modules eng = true → ∃ cap, (requires env2 eng ext s).1 = .ok cap) ∧
    (∀ (env : Env) (f : LStr) (s : TState),
        List.lookup f s.file = none → env.fs f = none →
        Temper.read env f s = (.error (.fileUnreadable f), s)) := by
  refine ⟨?_, ?_, ?_⟩
  · intro env eng ext s h1 h2 h3
    simp only [requires, h1]
    rw [if_neg h2, if_neg (by simp [h3] : ¬ env.modules eng = true)]
  · intro env2 eng ext s hm
    cases hl : List.lookup eng s.required with
    | some cap =>
      refine ⟨cap, ?_⟩
      simp only [requires, hl]
    | none =>
      by_cases hh : eng = ls "html"
      · refine ⟨none, ?_⟩
        simp only [requires, hl, if_pos hh]
      · refine ⟨some (), ?_⟩
        simp only [requires, hl]
        rw [if_neg hh, if_pos hm]
  · intro env f s h1 h2
    simp only [Temper.read, h1, h2]

/-- C4 witness: a missing module is reported without touching the
state, the same require succeeds once the module loads, and a missing
file is reported without touching the state. -/
theorem C4_witness :
    requires envNone (ls "cowdoodlesack") (ls ".jade") st0 =
      (.error (.moduleMissing (ls "cowdoodlesack") (ls ".jade")), st0) ∧
    (∃ cap, (requires envAll (ls "cowdoodlesack") (ls ".jade") st0).1 = Except.ok cap) ∧
    Temper.read envNone (ls "/missing.jade") st0 =
      (.error (.fileUnreadable (ls "/missing.jade")), st0) :=
  ⟨C4_no_partial_mutation.1 envNone (ls "cowdoodlesack") (ls ".jade") st0
      (by decide) (by decide) (by decide),
   C4_no_partial_mutation.2.1 envAll (ls "cowdoodlesack") (ls ".jade") st0 (by decide),
   C4_no_partial_mutation.2.2 envNone (ls "/missing.jade") st0 (by decide) (by decide)⟩

/-- C5: evaluating the destroy of src/index.js on a live instance: the
inverted guard returns false at once, tears nothing down (every cache
and the timer collection survive untouched), and a second call behaves
the same, contradicting the claimed teardown-then-sentinel contract. -/
theorem C5_destroy_returns_false_without_teardown :
    IndexJs.destroy freshInst = .ok (false, freshInst) ∧
    freshInst.timers ≠ none ∧ freshInst.installed ≠ none ∧ freshInst.file ≠ none ∧
    ((IndexJs.destroy freshInst).bind fun r => IndexJs.destroy r.2) = .ok (false, freshInst) := by
  decide

/-- C7: normalizeName strips the extension, then the leading digit run,
then every character that is not alphanumeric, underscore or dollar; the
two boundary examples of the spec hold, and an all-numeric or
all-symbol base name yields the empty string rather than failing. -/
theorem C7_normalizeName :
    normalizeName (ls "9$-money_$00-test.jade") = ls "$money_$00test" ∧
    normalizeName (ls "template.jade") = ls "template" ∧
    (∀ p : LStr, (∀ c ∈ stripSuffix (basenameOf p) (extnameOf p), c.isDigit) →
      normalizeName p = []) ∧
    (∀ p : LStr, (∀ c ∈ stripSuffix (basenameOf p) (extnameOf p),
        (c.isAlphanum || c == '_' || c == '$') = false) →
      normalizeName p = []) := by
  refine ⟨by decide, by decide, ?_, ?_⟩
  · intro p h
    simp only [normalizeName]
    rw [List.dropWhile_eq_nil_iff.mpr h]
    rfl
  · intro p h
    simp only [normalizeName]
    refine List.filter_eq_nil_iff.mpr ?_
    intro c hc
    rw [h c (List.Sublist.mem hc (List.dropWhile_sublist Char.isDigit))]
    simp

/-- C7 witness: an all-numeric base name normalizes to the empty
string. -/
theorem C7_witness : normalizeName (ls "12345.jade") = [] :=
  C7_normalizeName.2.2.1 (ls "12345.jade") (by decide)

/-- C8: the caching flag of a constructed instance defaults to true
exactly when NODE_ENV differs from the production value (including when
it is unset), and an explicitly supplied cache option always wins over
the default. -/
theorem C8_cache_default :
    (∀ e : Option LStr, (temperInit none e).cache = !(e == some (ls "production"))) ∧
    (∀ e : Option LStr, (temperInit none e).cache = true ↔ e ≠ some (ls "production")) ∧
    (∀ (b : Bool) (e : Option LStr), (temperInit (some b) e).cache = b) ∧
    (temperInit none (some (ls "production"))).cache = false ∧
    (temperInit none (some (ls "development"))).cache = true ∧
    (temperInit none none).cache = true := by
  refine ⟨fun e => rfl, ?_, fun b e => rfl, by decide, by decide, rfl⟩
  intro e
  simp [temperInit, temperCacheOption]
